import Mathlib

/-! Shallow embedding of the grading core in `src/utils.py`
(`compute_grade_boundaries` and `validate_boundaries`), together with proofs
of the specified properties.  Scores are modelled as exact rationals; a
Python dictionary keyed by grade labels is modelled as an association list
kept in insertion order; operations that can raise a Python exception
(`list.index`, `.iloc` out of range, `dict[key]` on a missing key,
`seq[-1]` on an empty sequence) return `Option`, with `none` for a raise. -/

/-- Python dict update `d[k] = v`: replace the value in place when the key is
already present, otherwise append the new binding at the end. -/
def dictInsert : List (String × ℚ) → String → ℚ → List (String × ℚ)
  | [], k, v => [(k, v)]
  | p :: rest, k, v => if p.1 = k then (k, v) :: rest else p :: dictInsert rest k v

/-- Python dict read `d.get(k)`: first binding for the key, if any. -/
def dlookup (k : String) : List (String × ℚ) → Option ℚ
  | [] => none
  | p :: rest => if p.1 = k then some p.2 else dlookup k rest

/-- Positional access into a list of scores. -/
def nthQ : List ℚ → ℕ → Option ℚ
  | [], _ => none
  | x :: _, 0 => some x
  | _ :: xs, n + 1 => nthQ xs n

/-- pandas `.iloc[i]`: nonnegative positions index from the front, negative
positions index from the back, and an out-of-range position raises
`IndexError` (modelled by `none`). -/
def ilocQ (xs : List ℚ) (i : ℤ) : Option ℚ :=
  if 0 ≤ i then nthQ xs i.toNat
  else if -i ≤ (xs.length : ℤ) then nthQ xs (xs.length - (-i).toNat) else none

/-- Total version of `ilocQ`, used to describe in-range reads. -/
def ilocVal (xs : List ℚ) (i : ℤ) : ℚ := (ilocQ xs i).getD 0

/-- Line 13-14 of `utils.py`: the triangular weight profile
`np.max(distribution) - distribution + 1` built from the distances
`abs(i - center_idx)`. -/
def gradeWeights (labels : List String) (centric : String) : List ℕ :=
  let cIdx : ℤ := labels.indexOf centric
  let dists := (List.range labels.length).map (fun (i : ℕ) => ((i : ℤ) - cIdx).natAbs)
  let maxD := dists.foldr max 0
  dists.map (fun d => maxD - d + 1)

/-- Line 15-17 of `utils.py`: normalise the weights to proportions and take
`(distribution * total_students).astype(int)`; the values are nonnegative, so
the truncation is a floor. -/
def rawCounts (labels : List String) (centric : String) (t : ℕ) : List ℤ :=
  (gradeWeights labels centric).map
    (fun (w : ℕ) => ⌊(w : ℚ) / ((gradeWeights labels centric).sum : ℚ) * (t : ℚ)⌋)

/-- Line 18 of `utils.py`: `grade_counts[-1] += total_students - grade_counts.sum()`. -/
def gradeCounts (labels : List String) (centric : String) (t : ℕ) : List ℤ :=
  (rawCounts labels centric t).dropLast ++
    [(rawCounts labels centric t).getLastD 0 +
      ((t : ℤ) - (rawCounts labels centric t).sum)]

/-- Kernel-evaluable form of `rawCounts`, with the rational floor replaced by
natural division. -/
def rawCountsI (labels : List String) (centric : String) (t : ℕ) : List ℤ :=
  (gradeWeights labels centric).map
    (fun w => ((w * t / (gradeWeights labels centric).sum : ℕ) : ℤ))

theorem rawCounts_eq_div (labels : List String) (centric : String) (t : ℕ) :
    rawCounts labels centric t = rawCountsI labels centric t := by
  unfold rawCounts rawCountsI
  refine List.map_congr_left (fun w _ => ?_)
  rw [div_mul_eq_mul_div, ← Nat.cast_mul, Rat.floor_natCast_div_natCast]
  norm_cast

/-- The generator scan of line 34: first binding of the dict whose threshold
is at most the score. -/
def findQual (x : ℚ) : List (String × ℚ) → Option String
  | [] => none
  | p :: rest => if p.2 ≤ x then some p.1 else findQual x rest

/-- Line 34 of `utils.py`: `next((g for g, b in boundaries.items() if x >= b),
grade_labels[-1])`. -/
def assignGrade (x : ℚ) (d : List (String × ℚ)) (labels : List String) : String :=
  (findQual x d).getD (labels.getLastD "")

/-- Lines 22-30 of `utils.py`: the allocation loop over the non-last labels,
consuming `grade_counts[i]` sorted scores per step and recording
`df_sorted.iloc[end_idx - 1]` as the threshold whenever `start_idx <
total_students`. -/
def boundLoop : List (String × ℤ) → List ℚ → ℤ → List (String × ℚ) →
    Option (List (String × ℚ))
  | [], _, _, d => some d
  | (g, c) :: rest, sorted, start, d =>
    let e0 := start + c
    let e := if e0 > (sorted.length : ℤ) then (sorted.length : ℤ) else e0
    if start < (sorted.length : ℤ) then
      match ilocQ sorted (e - 1) with
      | none => none
      | some v => boundLoop rest sorted e (dictInsert d g v)
    else
      boundLoop rest sorted e d

/-- Lines 13-32 of `utils.py`: the automatic branch producing the boundary
dict, ending with `grade_boundaries[grade_labels[-1]] = 0`. -/
def autoBoundaries (scores : List ℚ) (labels : List String) (centric : String) :
    Option (List (String × ℚ)) :=
  let sorted := List.insertionSort (· ≥ ·) scores
  let counts := gradeCounts labels centric scores.length
  match boundLoop (labels.dropLast.zip counts) sorted 0 [] with
  | none => none
  | some d0 =>
    match labels.getLast? with
    | none => none
    | some lastL => some (dictInsert d0 lastL 0)

/-- `compute_grade_boundaries(df, grade_labels, grade_centric,
manual_boundaries)` from `utils.py`.  `grade_labels.index(grade_centric)` is
evaluated first (raising when the centric label is absent), then the truthiness
test `if manual_boundaries:` selects the manual or the automatic branch, and
line 34 labels every score.  The result pairs the `grade` column with the
boundary dict. -/
def compute_grade_boundaries (scores : List ℚ) (labels : List String)
    (centric : String) (manual : Option (List (String × ℚ))) :
    Option (List String × List (String × ℚ)) :=
  if centric ∈ labels then
    let mD := manual.getD []
    if mD.isEmpty then
      match autoBoundaries scores labels centric with
      | none => none
      | some d => some (scores.map (fun x => assignGrade x d labels), d)
    else
      some (scores.map (fun x => assignGrade x mD labels), mD)
  else none

/-- The list comprehension of line 39: `[boundaries[grade] for grade in
grade_labels[:-1]]`, raising `KeyError` (modelled by `none`) on a missing
label. -/
def lookupAll (ls : List String) (d : List (String × ℚ)) : Option (List ℚ) :=
  match ls with
  | [] => some []
  | l :: rest =>
    match dlookup l d with
    | none => none
    | some v => (lookupAll rest d).map (fun vs => v :: vs)

/-- Line 40: `all(values[i] > values[i+1] for i in range(len(values) - 1))`,
written over the list of adjacent pairs. -/
def descChain (vals : List ℚ) : Bool :=
  (vals.zip vals.tail).all (fun p => decide (p.1 > p.2))

/-- `validate_boundaries(grade_labels, boundaries)` from `utils.py`. -/
def validate_boundaries (labels : List String) (d : List (String × ℚ)) :
    Option Bool :=
  (lookupAll labels.dropLast d).map descChain

/-- The scan of the spec, section 4.3: walk the grade label sequence itself
from highest to lowest and return the first label whose threshold is at most
the score.  Labels without an entry in the boundary map are skipped. -/
def firstQualifying (x : ℚ) (d : List (String × ℚ)) : List String → Option String
  | [] => none
  | l :: ls =>
    match dlookup l d with
    | some b => if b ≤ x then some l else firstQualifying x d ls
    | none => firstQualifying x d ls

/-- The assigner as worded by the spec (section 4.3): sequence-order scan with
fallback to the lowest grade label. -/
def assignGradeSpec (x : ℚ) (labels : List String) (d : List (String × ℚ)) :
    String :=
  (firstQualifying x d labels).getD (labels.getLastD "")

/-- Reference description of the thresholds recorded by `boundLoop` when no
clamping occurs: the entry for step `i` reads the sorted scores at the
cumulative end index minus one. -/
def thresholdVals (sorted : List ℚ) : ℤ → List ℤ → List ℚ
  | _, [] => []
  | start, c :: rest => ilocVal sorted (start + c - 1) :: thresholdVals sorted (start + c) rest

/-! Basic facts about the dictionary model. -/

theorem dictInsert_of_not_mem (d : List (String × ℚ)) (k : String) (v : ℚ)
    (h : k ∉ d.map Prod.fst) : dictInsert d k v = d ++ [(k, v)] := by
  induction d with
  | nil => rfl
  | cons p rest ih =>
    simp only [List.map_cons, List.mem_cons] at h
    push_neg at h
    simp [dictInsert, Ne.symm h.1, ih h.2]

theorem dlookup_dictInsert_self (d : List (String × ℚ)) (k : String) (v : ℚ) :
    dlookup k (dictInsert d k v) = some v := by
  induction d with
  | nil => simp [dictInsert, dlookup]
  | cons p rest ih =>
    by_cases h : p.1 = k
    · simp [dictInsert, h, dlookup]
    · simp [dictInsert, h, dlookup, ih]

theorem dlookup_eq_none_of_not_mem (k : String) (d : List (String × ℚ))
    (h : k ∉ d.map Prod.fst) : dlookup k d = none := by
  induction d with
  | nil => rfl
  | cons p rest ih =>
    simp only [List.map_cons, List.mem_cons] at h
    push_neg at h
    simp [dlookup, Ne.symm h.1, ih h.2]

theorem dlookup_isSome_of_mem (k : String) (d : List (String × ℚ))
    (h : k ∈ d.map Prod.fst) : (dlookup k d).isSome := by
  induction d with
  | nil => simp at h
  | cons p rest ih =>
    by_cases hk : p.1 = k
    · simp [dlookup, hk]
    · simp only [List.map_cons, List.mem_cons] at h
      rcases h with h | h
    

      · exact absurd h.symm hk
      · simp [dlookup, hk, ih h]

theorem dlookup_append_of_mem (k : String) (d1 d2 : List (String × ℚ))
    (h : k ∈ d1.map Prod.fst) : dlookup k (d1 ++ d2) = dlookup k d1 := by
  induction d1 with
  | nil => simp at h
  | cons p rest ih =>
    by_cases hk : p.1 = k
    · simp [dlookup, hk]
    · simp only [List.map_cons, List.mem_cons] at h
      rcases h with h | h
      · exact absurd h.symm hk
      · simp [dlookup, hk, ih h]

theorem dlookup_append_of_not_mem (k : String) (d1 d2 : List (String × ℚ))
    (h : k ∉ d1.map Prod.fst) : dlookup k (d1 ++ d2) = dlookup k d2 := by
  induction d1 with
  | nil => rfl
  | cons p rest ih =>
    simp only [List.map_cons, List.mem_cons] at h
    push_neg at h
    simp [dlookup, Ne.symm h.1, ih h.2]

theorem keys_dictInsert_subset (d : List (String × ℚ)) (k : String) (v : ℚ) :
    (dictInsert d k v).map Prod.fst ⊆ k :: d.map Prod.fst := by
  induction d with
  | nil => simp [dictInsert]
  | cons p rest ih =>
    by_cases h : p.1 = k
    · simp [dictInsert, h, List.subset_cons_of_subset, List.Subset.refl]
    · intro a ha
      simp only [dictInsert, h, if_false, List.map_cons, List.mem_cons] at ha
      rcases ha with ha | ha
      · simp [ha]
      · have := ih ha
        simp only [List.mem_cons] at this ⊢
        tauto

theorem mem_keys_dictInsert (d : List (String × ℚ)) (k k2 : String) (v : ℚ)
    (h : k2 ∈ d.map Prod.fst) : k2 ∈ (dictInsert d k v).map Prod.fst := by
  induction d with
  | nil => simp at h
  | cons p rest ih =>
    by_cases hk : p.1 = k
    · rw [show dictInsert (p :: rest) k v = (k, v) :: rest from by simp [dictInsert, hk]]
      simp only [List.map_cons, List.mem_cons] at h ⊢
      rcases h with h | h
      · exact Or.inl (h.trans hk)
      · exact Or.inr h
    · rw [show dictInsert (p :: rest) k v = p :: dictInsert rest k v from by
        simp [dictInsert, hk]]
      simp only [List.map_cons, List.mem_cons] at h ⊢
      rcases h with h | h
      · exact Or.inl h
      · exact Or.inr (ih h)

theorem findQual_mem_keys (x : ℚ) (d : List (String × ℚ)) (g : String)
    (h : findQual x d = some g) : g ∈ d.map Prod.fst := by
  induction d with
  | nil => simp [findQual] at h
  | cons p rest ih =>
    by_cases hb : p.2 ≤ x
    · simp only [findQual, hb, if_true, Option.some.injEq] at h
      simp [h]
    · simp only [findQual, hb, if_false] at h
      simp [ih h]

theorem findQual_eq_none (x : ℚ) (d : List (String × ℚ))
    (h : ∀ p ∈ d, ¬ p.2 ≤ x) : findQual x d = none := by
  induction d with
  | nil => rfl
  | cons p rest ih =>
    simp only [List.mem_cons] at h
    simp [findQual, h p (Or.inl rfl), ih (fun q hq => h q (Or.inr hq))]

/-! Facts about the validator's comprehension and its adjacent-pair check. -/

theorem lookupAll_isSome (L : List String) (d : List (String × ℚ))
    (h : ∀ l ∈ L, (dlookup l d).isSome) : ∃ vs, lookupAll L d = some vs := by
  induction L with
  | nil => exact ⟨[], rfl⟩
  | cons l rest ih =>
    have hl := h l (List.mem_cons_self l rest)
    obtain ⟨v, hv⟩ := Option.isSome_iff_exists.mp hl
    obtain ⟨vs, hvs⟩ := ih (fun m hm => h m (List.mem_cons_of_mem l hm))
    exact ⟨v :: vs, by simp [lookupAll, hv, hvs]⟩

theorem lookupAll_congr (L : List String) (d d2 : List (String × ℚ))
    (h : ∀ l ∈ L, dlookup l d = dlookup l d2) : lookupAll L d = lookupAll L d2 := by
  induction L with
  | nil => rfl
  | cons l rest ih =>
    have hl := h l (List.mem_cons_self l rest)
    have hr := ih (fun m hm => h m (List.mem_cons_of_mem l hm))
    simp [lookupAll, hl, hr]

theorem lookupAll_self (es : List (String × ℚ)) (h : (es.map Prod.fst).Nodup) :
    lookupAll (es.map Prod.fst) es = some (es.map Prod.snd) := by
  induction es with
  | nil => rfl
  | cons p rest ih =>
    simp only [List.map_cons, List.nodup_cons] at h
    have hskip : lookupAll (rest.map Prod.fst) (p :: rest) =
        lookupAll (rest.map Prod.fst) rest := by
      refine lookupAll_congr _ _ _ (fun l hl => ?_)
      have : p.1 ≠ l := fun e => h.1 (e ▸ hl)
      simp [dlookup, this]
    simp [lookupAll, dlookup, hskip, ih h.2]

theorem descChain_iff (vals : List ℚ) :
    descChain vals = true ↔ List.Chain' (· > ·) vals := by
  induction vals with
  | nil => simp [descChain]
  | cons a l ih =>
    cases l with
    | nil => simp [descChain]
    | cons b l2 =>
      rw [List.chain'_cons, ← ih]
      simp [descChain]

/-! Facts about the assigner scan. -/

theorem firstQualifying_empty (x : ℚ) (ls : List String) :
    firstQualifying x [] ls = none := by
  induction ls with
  | nil => rfl
  | cons l rest ih => simp [firstQualifying, dlookup, ih]

theorem firstQualifying_skip (x : ℚ) (p : String × ℚ) (d : List (String × ℚ))
    (ls : List String) (h : p.1 ∉ ls) :
    firstQualifying x (p :: d) ls = firstQualifying x d ls := by
  induction ls with
  | nil => rfl
  | cons l rest ih =>
    simp only [List.mem_cons] at h
    push_neg at h
    simp [firstQualifying, dlookup, h.1, ih h.2]

theorem firstQualifying_eq_findQual (x : ℚ) (labels : List String)
    (d : List (String × ℚ)) (hsub : List.Sublist (d.map Prod.fst) labels)
    (hnd : labels.Nodup) : firstQualifying x d labels = findQual x d := by
  induction labels generalizing d with
  | nil =>
    have : d = [] := by
      have := List.sublist_nil.mp hsub
      exact List.map_eq_nil_iff.mp this
    subst this
    rfl
  | cons l ls ih =>
    cases d with
    | nil => simp [firstQualifying_empty, findQual]
    | cons p d2 =>
      simp only [List.nodup_cons] at hnd
      cases hsub with
      | cons _ h =>
        have hl : l ∉ (p :: d2).map Prod.fst := fun hmem => hnd.1 (h.subset hmem)
        have hlook : dlookup l (p :: d2) = none := dlookup_eq_none_of_not_mem _ _ hl
        simp only [firstQualifying, hlook]
        exact ih (p :: d2) h hnd.2
      | cons₂ _ h =>
        have hstep : firstQualifying x (p :: d2) (p.1 :: ls) =
            if p.2 ≤ x then some p.1 else firstQualifying x (p :: d2) ls := by
          simp [firstQualifying, dlookup]
        by_cases hbx : p.2 ≤ x
        · rw [hstep, if_pos hbx]
          simp [findQual, hbx]
        · rw [hstep, if_neg hbx, firstQualifying_skip x p d2 ls hnd.1]
          simp only [findQual, hbx, if_false]
          exact ih d2 h hnd.2

/-! Count arithmetic. -/

theorem rawCounts_length (labels : List String) (centric : String) (t : ℕ) :
    (rawCounts labels centric t).length = labels.length := by
  simp [rawCounts, gradeWeights]

theorem sum_dropLast_getLastD (l : List ℤ) (h : l ≠ []) :
    l.dropLast.sum + l.getLastD 0 = l.sum := by
  conv_rhs => rw [← List.dropLast_append_getLast h]
  rw [List.sum_append, List.sum_cons, List.sum_nil, add_zero]
  congr 1
  rw [List.getLastD_eq_getLast?, List.getLast?_eq_getLast _ h, Option.getD_some]

/-- C1: for every label sequence of length at least two with a member centric
label, the integer target counts of automatic mode (floors of the proportions
times the number of students, with the whole leftover added to the last
label's count) sum exactly to the number of students. -/
theorem C1_counts_sum_exact (labels : List String) (centric : String) (t : ℕ)
    (h2 : 2 ≤ labels.length) (hc : centric ∈ labels) :
    (gradeCounts labels centric t).sum = (t : ℤ) := by
  have hne : rawCounts labels centric t ≠ [] := by
    intro h
    have hl := rawCounts_length labels centric t
    rw [h] at hl
    simp at hl
    omega
  have hsum := sum_dropLast_getLastD (rawCounts labels centric t) hne
  simp only [gradeCounts, List.sum_append, List.sum_cons, List.sum_nil]
  omega

/-- C1 witness: the counts for the worked scenario sum to the ten students. -/
theorem C1_counts_sum_exact_w :
    2 ≤ (["A", "B", "F"] : List String).length ∧ "B" ∈ ["A", "B", "F"] ∧
      (gradeCounts ["A", "B", "F"] "B" 10).sum = (10 : ℤ) :=
  ⟨by decide, by decide, C1_counts_sum_exact ["A", "B", "F"] "B" 10 (by decide) (by decide)⟩

/-! The manual branch. -/

theorem manualBranch (scores : List ℚ) (labels : List String) (centric : String)
    (m : List (String × ℚ)) (hc : centric ∈ labels) (hm : m ≠ []) :
    compute_grade_boundaries scores labels centric (some m) =
      some (scores.map (fun x => assignGrade x m labels), m) := by
  cases m with
  | nil => exact absurd rfl hm
  | cons p r => simp [compute_grade_boundaries, hc, List.isEmpty_cons]

/-- C8 (amended): any non-empty manual mapping is passed through verbatim:
the returned boundary map is exactly the supplied one, with no recomputation
of counts and no validation, including non-descending mappings. -/
theorem C8_manual_verbatim (scores : List ℚ) (labels : List String)
    (centric : String) (m : List (String × ℚ)) (hc : centric ∈ labels)
    (hm : m ≠ []) :
    compute_grade_boundaries scores labels centric (some m) =
      some (scores.map (fun x => assignGrade x m labels), m) :=
  manualBranch scores labels centric m hc hm

/-- C8 witness: a non-descending manual mapping is applied unchanged. -/
theorem C8_manual_verbatim_w :
    compute_grade_boundaries [50] ["A", "B", "F"] "F" (some [("A", 30), ("B", 30)]) =
      some (["A"], [("A", 30), ("B", 30)]) :=
  C8_manual_verbatim [50] ["A", "B", "F"] "F" [("A", 30), ("B", 30)]
    (by decide) (by decide)

/-- C8 counterexample: the empty manual mapping is falsy in Python, so the
automatic branch runs instead of returning the supplied mapping verbatim. -/
theorem C8_cex :
    compute_grade_boundaries [] ["A", "B"] "A" (some []) = some ([], [("B", 0)]) ∧
    compute_grade_boundaries [] ["A", "B"] "A" (some []) ≠ some ([], []) := by
  simp only [compute_grade_boundaries, autoBoundaries, gradeCounts, rawCounts_eq_div]
  decide

/-- C10: the membership precondition on the centric label applies in manual
mode as well, because `grade_labels.index(grade_centric)` runs before the
manual branch; and the centric value does not influence the manual result. -/
theorem C10_manual_membership (scores : List ℚ) (labels : List String)
    (m : List (String × ℚ)) :
    (∀ centric, centric ∉ labels →
      ∀ mo, compute_grade_boundaries scores labels centric mo = none) ∧
    (∀ c1, c1 ∈ labels → ∀ c2, c2 ∈ labels → m ≠ [] →
      compute_grade_boundaries scores labels c1 (some m) =
        compute_grade_boundaries scores labels c2 (some m)) := by
  constructor
  · intro c hne mo
    simp [compute_grade_boundaries, hne]
  · intro c1 h1 c2 h2 hm
    rw [manualBranch scores labels c1 m h1 hm, manualBranch scores labels c2 m h2 hm]

/-- C10 witness: a missing centric label raises even in manual mode, and
swapping member centric labels leaves the manual result unchanged. -/
theorem C10_manual_membership_w :
    compute_grade_boundaries [50] ["A", "B"] "Z" (some [("A", 90)]) = none ∧
    compute_grade_boundaries [50] ["A", "B"] "A" (some [("A", 90)]) =
      compute_grade_boundaries [50] ["A", "B"] "B" (some [("A", 90)]) :=
  ⟨(C10_manual_membership [50] ["A", "B"] [("A", 90)]).1 "Z" (by decide)
      (some [("A", 90)]),
   (C10_manual_membership [50] ["A", "B"] [("A", 90)]).2 "A" (by decide) "B"
      (by decide) (by decide)⟩

/-- C7: with an entry for every non-last label, the validator returns a
boolean that is true exactly when the non-last thresholds, walked in label
order, are strictly descending; the last label's entry is never examined. -/
theorem C7_validator_spec (labels : List String) (d : List (String × ℚ))
    (h : ∀ l ∈ labels.dropLast, (dlookup l d).isSome) :
    ∃ vals, lookupAll labels.dropLast d = some vals ∧
      (validate_boundaries labels d = some true ↔ List.Chain' (· > ·) vals) ∧
      ∀ d2, (∀ l ∈ labels.dropLast, dlookup l d2 = dlookup l d) →
        validate_boundaries labels d2 = validate_boundaries labels d := by
  obtain ⟨vals, hv⟩ := lookupAll_isSome _ _ h
  refine ⟨vals, hv, ?_, ?_⟩
  · rw [validate_boundaries, hv]
    simp [descChain_iff]
  · intro d2 hd2
    unfold validate_boundaries
    rw [lookupAll_congr _ d2 d hd2]

/-- C7 witness: the validator accepts the strictly descending worked
boundary map. -/
theorem C7_validator_spec_w :
    ∃ vals,
      lookupAll (["A", "B", "F"] : List String).dropLast
          [("A", 90), ("B", 30), ("F", 0)] = some vals ∧
      (validate_boundaries ["A", "B", "F"] [("A", 90), ("B", 30), ("F", 0)] =
          some true ↔ List.Chain' (· > ·) vals) ∧
      ∀ d2, (∀ l ∈ (["A", "B", "F"] : List String).dropLast,
          dlookup l d2 = dlookup l [("A", 90), ("B", 30), ("F", 0)]) →
        validate_boundaries ["A", "B", "F"] d2 =
          validate_boundaries ["A", "B", "F"] [("A", 90), ("B", 30), ("F", 0)] :=
  C7_validator_spec ["A", "B", "F"] [("A", 90), ("B", 30), ("F", 0)] (by decide)

/-- C6 (amended): the assigner scans the boundary map in insertion order;
when the map's key order follows the grade label sequence the scan agrees
with the sequence-order scan of the spec, and when no entry qualifies the
assigner falls back to the lowest label without raising. -/
theorem C6_assigner_amended (x : ℚ) (labels : List String)
    (d : List (String × ℚ)) (hsub : List.Sublist (d.map Prod.fst) labels)
    (hnd : labels.Nodup) :
    assignGrade x d labels = assignGradeSpec x labels d ∧
    ((∀ p ∈ d, ¬ p.2 ≤ x) → assignGrade x d labels = labels.getLastD "") := by
  constructor
  · unfold assignGrade assignGradeSpec
    rw [firstQualifying_eq_findQual x labels d hsub hnd]
  · intro h
    unfold assignGrade
    rw [findQual_eq_none x d h]
    rfl

/-- C6 witness: on an order-consistent map the two scans agree. -/
theorem C6_assigner_amended_w :
    assignGrade 50 [("A", 90), ("B", 30), ("F", 0)] ["A", "B", "F"] =
      assignGradeSpec 50 ["A", "B", "F"] [("A", 90), ("B", 30), ("F", 0)] ∧
    ((∀ p ∈ [("A", (90 : ℚ)), ("B", 30), ("F", 0)], ¬ p.2 ≤ (50 : ℚ)) →
      assignGrade 50 [("A", 90), ("B", 30), ("F", 0)] ["A", "B", "F"] =
        (["A", "B", "F"] : List String).getLastD "") :=
  C6_assigner_amended 50 ["A", "B", "F"] [("A", 90), ("B", 30), ("F", 0)]
    (by decide) (by decide)

/-- C6 counterexample: on a boundary map whose insertion order differs from
the label sequence order, the assigner follows the map order ("B"), not the
sequence order of the claim ("A"). -/
theorem C6_cex :
    assignGrade 95 [("B", 30), ("A", 90)] ["A", "B", "F"] = "B" ∧
    assignGradeSpec 95 ["A", "B", "F"] [("B", 30), ("A", 90)] = "A" ∧
    ("B" : String) ≠ "A" := by decide

/-- C3 (amended): the worked scenario with the threshold the code computes:
weights `[1, 2, 1]`, counts `[2, 5, 3]`, boundary map `A = 90`, `B = 40`
(the tenth-sorted-position rule gives 40, not 30), `F = 0`, and the three
sample assignments. -/
theorem C3_scenario_amended :
    gradeWeights ["A", "B", "F"] "B" = [1, 2, 1] ∧
    gradeCounts ["A", "B", "F"] "B" 10 = [2, 5, 3] ∧
    compute_grade_boundaries [10, 20, 30, 40, 50, 60, 70, 80, 90, 100]
      ["A", "B", "F"] "B" none =
      some (["F", "F", "F", "B", "B", "B", "B", "B", "A", "A"],
        [("A", 90), ("B", 40), ("F", 0)]) ∧
    assignGrade 95 [("A", 90), ("B", 40), ("F", 0)] ["A", "B", "F"] = "A" ∧
    assignGrade 50 [("A", 90), ("B", 40), ("F", 0)] ["A", "B", "F"] = "B" ∧
    assignGrade 5 [("A", 90), ("B", 40), ("F", 0)] ["A", "B", "F"] = "F" := by
  simp only [compute_grade_boundaries, autoBoundaries, gradeCounts, rawCounts_eq_div]
  decide

/-- C3 counterexample: the scenario's claimed "B" threshold of 30 is wrong;
the code stores 40 for "B". -/
theorem C3_cex :
    (compute_grade_boundaries [10, 20, 30, 40, 50, 60, 70, 80, 90, 100]
        ["A", "B", "F"] "B" none).map (fun r => dlookup "B" r.2) =
      some (some 40) ∧
    (compute_grade_boundaries [10, 20, 30, 40, 50, 60, 70, 80, 90, 100]
        ["A", "B", "F"] "B" none).map (fun r => dlookup "B" r.2) ≠
      some (some 30) := by
  simp only [compute_grade_boundaries, autoBoundaries, gradeCounts, rawCounts_eq_div]
  decide

/-- C2 counterexample: two students and three labels centred on "B" produce
thresholds `A = 10`, `B = 20`, ascending rather than strictly descending, and
the validator rejects the automatic boundary map. -/
theorem C2_cex :
    compute_grade_boundaries [10, 20] ["A", "B", "F"] "B" none =
      some (["A", "A"], [("A", 10), ("B", 20), ("F", 0)]) ∧
    validate_boundaries ["A", "B", "F"] [("A", 10), ("B", 20), ("F", 0)] =
      some false := by
  simp only [compute_grade_boundaries, autoBoundaries, gradeCounts, rawCounts_eq_div]
  decide

/-- C9 counterexample: on an empty score set the automatic boundary map
contains only the last label, and validating it raises `KeyError` (`none`). -/
theorem C9_cex :
    compute_grade_boundaries [] ["A", "B", "F"] "B" none = some ([], [("F", 0)]) ∧
    validate_boundaries ["A", "B", "F"] [("F", 0)] = none := by
  simp only [compute_grade_boundaries, autoBoundaries, gradeCounts, rawCounts_eq_div]
  decide

/-! Positional access and the allocation loop. -/

theorem nthQ_get (xs : List ℚ) : ∀ (n : ℕ) (h : n < xs.length),
    nthQ xs n = some (xs.get ⟨n, h⟩) := by
  induction xs with
  | nil => intro n h; simp at h
  | cons a l ih =>
    intro n h
    cases n with
    | zero => rfl
    | succ m => exact ih m (by simpa using h)

theorem ilocQ_in_range (xs : List ℚ) (i : ℤ) (h0 : 0 ≤ i)
    (h : i < (xs.length : ℤ)) :
    ∃ hn : i.toNat < xs.length, ilocQ xs i = some (xs.get ⟨i.toNat, hn⟩) := by
  have hn : i.toNat < xs.length := by omega
  exact ⟨hn, by rw [ilocQ, if_pos h0, nthQ_get xs i.toNat hn]⟩

theorem ilocQ_neg_one (xs : List ℚ) (h : xs ≠ []) :
    ∃ hn : xs.length - 1 < xs.length,
      ilocQ xs (-1) = some (xs.get ⟨xs.length - 1, hn⟩) := by
  have hl : 0 < xs.length := List.length_pos.mpr h
  refine ⟨by omega, ?_⟩
  rw [ilocQ, if_neg (by norm_num), if_pos (by push_cast; omega)]
  have h1 : (-(-1 : ℤ)).toNat = 1 := by norm_num
  rw [h1, nthQ_get xs (xs.length - 1) (by omega)]

theorem ilocQ_ge_neg_one (xs : List ℚ) (i : ℤ) (hge : -1 ≤ i)
    (hlt : i < (xs.length : ℤ)) (hne : 1 ≤ xs.length) :
    ilocQ xs i = some (ilocVal xs i) := by
  by_cases h0 : 0 ≤ i
  · obtain ⟨hn, hiq⟩ := ilocQ_in_range xs i h0 hlt
    simp [ilocVal, hiq]
  · have hi : i = -1 := by omega
    subst hi
    obtain ⟨hn, hiq⟩ := ilocQ_neg_one xs (by
      intro h
      rw [h] at hne
      simp at hne)
    simp [ilocVal, hiq]

theorem ilocVal_eq_get (xs : List ℚ) (i : ℤ) (h0 : 0 ≤ i)
    (hlt : i < (xs.length : ℤ)) :
    ∃ hn : i.toNat < xs.length, ilocVal xs i = xs.get ⟨i.toNat, hn⟩ := by
  obtain ⟨hn, hiq⟩ := ilocQ_in_range xs i h0 hlt
  exact ⟨hn, by simp [ilocVal, hiq]⟩

theorem boundLoop_cons (g : String) (c : ℤ) (rest : List (String × ℤ))
    (sorted : List ℚ) (start : ℤ) (d : List (String × ℚ)) :
    boundLoop ((g, c) :: rest) sorted start d =
      if start < (sorted.length : ℤ) then
        match ilocQ sorted
            ((if start + c > (sorted.length : ℤ) then (sorted.length : ℤ)
              else start + c) - 1) with
        | none => none
        | some v =>
          boundLoop rest sorted
            (if start + c > (sorted.length : ℤ) then (sorted.length : ℤ)
              else start + c) (dictInsert d g v)
      else
        boundLoop rest sorted
          (if start + c > (sorted.length : ℤ) then (sorted.length : ℤ)
            else start + c) d := rfl

theorem boundLoop_isSome (sorted : List ℚ) :
    ∀ (pairs : List (String × ℤ)) (start : ℤ) (d : List (String × ℚ)),
      0 ≤ start → (∀ p ∈ pairs, 0 ≤ p.2) →
      ∃ d2, boundLoop pairs sorted start d = some d2 := by
  intro pairs
  induction pairs with
  | nil => exact fun start d _ _ => ⟨d, rfl⟩
  | cons pc rest ih =>
    intro start d hs hp
    obtain ⟨g, c⟩ := pc
    have hc : (0 : ℤ) ≤ c := hp (g, c) (List.mem_cons_self _ _)
    have hrest : ∀ p ∈ rest, (0 : ℤ) ≤ p.2 :=
      fun p hp2 => hp p (List.mem_cons_of_mem _ hp2)
    rw [boundLoop_cons]
    by_cases hlt : start < (sorted.length : ℤ)
    · rw [if_pos hlt]
      have hiq : ilocQ sorted
          ((if start + c > (sorted.length : ℤ) then (sorted.length : ℤ)
            else start + c) - 1) =
          some (ilocVal sorted
            ((if start + c > (sorted.length : ℤ) then (sorted.length : ℤ)
              else start + c) - 1)) := by
        by_cases hgt : start + c > (sorted.length : ℤ)
        · rw [if_pos hgt]
          exact ilocQ_ge_neg_one sorted _ (by omega) (by omega) (by omega)
        · rw [if_neg hgt]
          exact ilocQ_ge_neg_one sorted _ (by omega) (by omega) (by omega)
      rw [hiq]
      obtain ⟨d2, hd2⟩ := ih
        (if start + c > (sorted.length : ℤ) then (sorted.length : ℤ) else start + c)
        (dictInsert d g _) (by
          by_cases hgt : start + c > (sorted.length : ℤ)
          · rw [if_pos hgt]; omega
          · rw [if_neg hgt]; omega) hrest
      exact ⟨d2, hd2⟩
    · rw [if_neg hlt]
      exact ih _ d (by
        by_cases hgt : start + c > (sorted.length : ℤ)
        · rw [if_pos hgt]; omega
        · rw [if_neg hgt]; omega) hrest

theorem self_mem_keys_dictInsert (d : List (String × ℚ)) (k : String) (v : ℚ) :
    k ∈ (dictInsert d k v).map Prod.fst := by
  induction d with
  | nil => simp [dictInsert]
  | cons p rest ih =>
    by_cases h : p.1 = k
    · simp [dictInsert, h]
    · simp only [dictInsert, h, if_false, List.map_cons, List.mem_cons]
      exact Or.inr ih

theorem boundLoop_keys (sorted : List ℚ) :
    ∀ (pairs : List (String × ℤ)) (start : ℤ) (d d2 : List (String × ℚ)),
      boundLoop pairs sorted start d = some d2 →
      ∀ a ∈ d2.map Prod.fst, a ∈ d.map Prod.fst ∨ a ∈ pairs.map Prod.fst := by
  intro pairs
  induction pairs with
  | nil =>
    intro start d d2 h a ha
    cases h
    exact Or.inl ha
  | cons pc rest ih =>
    intro start d d2 h a ha
    obtain ⟨g, c⟩ := pc
    rw [boundLoop_cons] at h
    by_cases hlt : start < (sorted.length : ℤ)
    · rw [if_pos hlt] at h
      rcases hv : ilocQ sorted
          ((if start + c > (sorted.length : ℤ) then (sorted.length : ℤ)
            else start + c) - 1) with _ | v
      · rw [hv] at h
        cases h
      · rw [hv] at h
        rcases ih _ _ _ h a ha with hin | hin
        · have := keys_dictInsert_subset d g v hin
          simp only [List.mem_cons] at this
          rcases this with h1 | h1
          · exact Or.inr (by simp [h1])
          · exact Or.inl h1
        · exact Or.inr (by simp [hin])
    · rw [if_neg hlt] at h
      rcases ih _ _ _ h a ha with hin | hin
      · exact Or.inl hin
      · exact Or.inr (by simp [hin])

theorem boundLoop_keys_present (sorted : List ℚ) :
    ∀ (pairs : List (String × ℤ)) (start : ℤ) (d d2 : List (String × ℚ)),
      0 ≤ start → (∀ p ∈ pairs, 0 ≤ p.2) →
      start + (pairs.map Prod.snd).sum < (sorted.length : ℤ) →
      boundLoop pairs sorted start d = some d2 →
      (∀ g ∈ pairs.map Prod.fst, g ∈ d2.map Prod.fst) ∧
      (∀ g ∈ d.map Prod.fst, g ∈ d2.map Prod.fst) := by
  intro pairs
  induction pairs with
  | nil =>
    intro start d d2 _ _ _ h
    cases h
    exact ⟨by simp, fun g hg => hg⟩
  | cons pc rest ih =>
    intro start d d2 hs hp hbound h
    obtain ⟨g, c⟩ := pc
    have hc : (0 : ℤ) ≤ c := hp (g, c) (List.mem_cons_self _ _)
    have hrest : ∀ p ∈ rest, (0 : ℤ) ≤ p.2 :=
      fun p hp2 => hp p (List.mem_cons_of_mem _ hp2)
    have hsum : 0 ≤ (rest.map Prod.snd).sum :=
      List.sum_nonneg (by
        intro a ha
        obtain ⟨p, hp2, rfl⟩ := List.mem_map.mp ha
        exact hrest p hp2)
    have hcons : (((g, c) :: rest).map Prod.snd).sum = c + (rest.map Prod.snd).sum := by
      simp
    rw [hcons] at hbound
    have hlt : start < (sorted.length : ℤ) := by omega
    have hnoclamp : ¬ start + c > (sorted.length : ℤ) := by omega
    rw [boundLoop_cons, if_pos hlt, if_neg hnoclamp] at h
    rw [ilocQ_ge_neg_one sorted (start + c - 1) (by omega) (by omega) (by omega)] at h
    have hloop : boundLoop rest sorted (start + c)
        (dictInsert d g (ilocVal sorted (start + c - 1))) = some d2 := h
    obtain ⟨h1, h2⟩ := ih (start + c) _ d2 (by omega) hrest (by omega) hloop
    refine ⟨?_, ?_⟩
    · intro g2 hg2
      simp only [List.map_cons, List.mem_cons] at hg2
      rcases hg2 with hg2 | hg2
      · exact hg2 ▸ h2 g (self_mem_keys_dictInsert d g _)
      · exact h1 g2 hg2
    · intro g2 hg2
      exact h2 g2 (mem_keys_dictInsert d g g2 _ hg2)

theorem thresholdVals_length (sorted : List ℚ) :
    ∀ (cs : List ℤ) (start : ℤ), (thresholdVals sorted start cs).length = cs.length := by
  intro cs
  induction cs with
  | nil => intro start; rfl
  | cons c cs2 ih => intro start; simp [thresholdVals, ih]

theorem boundLoop_run (sorted : List ℚ) :
    ∀ (ks : List String) (cs : List ℤ) (start : ℤ) (d : List (String × ℚ)),
      ks.length = cs.length → 0 ≤ start → (∀ c ∈ cs, 0 ≤ c) →
      start + cs.sum < (sorted.length : ℤ) →
      ks.Nodup → (∀ g ∈ ks, g ∉ d.map Prod.fst) →
      boundLoop (ks.zip cs) sorted start d =
        some (d ++ ks.zip (thresholdVals sorted start cs)) := by
  intro ks
  induction ks with
  | nil =>
    intro cs start d hlen _ _ _ _ _
    have : cs = [] := by
      cases cs with
      | nil => rfl
      | cons a l => simp at hlen
    subst this
    simp [boundLoop, thresholdVals]
  | cons g ks2 ih =>
    intro cs start d hlen hs hcs hbound hnd hfresh
    cases cs with
    | nil => simp at hlen
    | cons c cs2 =>
      have hc0 : (0 : ℤ) ≤ c := hcs c (List.mem_cons_self _ _)
      have hrest : ∀ a ∈ cs2, (0 : ℤ) ≤ a :=
        fun a ha => hcs a (List.mem_cons_of_mem _ ha)
      have hsum2 : 0 ≤ cs2.sum := List.sum_nonneg hrest
      have hsplit : (c :: cs2).sum = c + cs2.sum := by simp
      rw [hsplit] at hbound
      have hlt : start < (sorted.length : ℤ) := by omega
      have hnoclamp : ¬ start + c > (sorted.length : ℤ) := by omega
      simp only [List.nodup_cons] at hnd
      rw [List.zip_cons_cons, boundLoop_cons, if_pos hlt, if_neg hnoclamp,
        ilocQ_ge_neg_one sorted (start + c - 1) (by omega) (by omega) (by omega)]
      have hfreshg : g ∉ d.map Prod.fst := hfresh g (List.mem_cons_self _ _)
      have hstep : boundLoop (ks2.zip cs2) sorted (start + c)
          (dictInsert d g (ilocVal sorted (start + c - 1))) =
          some ((d ++ [(g, ilocVal sorted (start + c - 1))]) ++
            ks2.zip (thresholdVals sorted (start + c) cs2)) := by
        rw [dictInsert_of_not_mem d g _ hfreshg]
        refine ih cs2 (start + c) _ (by simpa using hlen) (by omega) hrest
          (by omega) hnd.2 ?_
        intro g2 hg2
        simp only [List.map_append, List.map_cons, List.map_nil, List.mem_append,
          List.mem_cons]
        push_neg
        refine ⟨fun hmem => hfresh g2 (List.mem_cons_of_mem _ hg2) hmem, ?_, by simp⟩
        intro he
        exact hnd.1 (he ▸ hg2)
      show boundLoop (ks2.zip cs2) sorted (start + c)
          (dictInsert d g (ilocVal sorted (start + c - 1))) =
        some (d ++ (g :: ks2).zip (thresholdVals sorted start (c :: cs2)))
      rw [hstep, thresholdVals, List.zip_cons_cons]
      simp [List.append_assoc]

theorem thresholdVals_mem (sorted : List ℚ) :
    ∀ (cs : List ℤ) (start : ℤ), (∀ c ∈ cs, 1 ≤ c) →
      ∀ x ∈ thresholdVals sorted start cs,
        ∃ i : ℤ, start ≤ i ∧ i + 1 ≤ start + cs.sum ∧ x = ilocVal sorted i := by
  intro cs
  induction cs with
  | nil => intro start _ x hx; simp [thresholdVals] at hx
  | cons c cs2 ih =>
    intro start hcs x hx
    have hc1 : (1 : ℤ) ≤ c := hcs c (List.mem_cons_self _ _)
    have hrest : ∀ a ∈ cs2, (1 : ℤ) ≤ a :=
      fun a ha => hcs a (List.mem_cons_of_mem _ ha)
    have hsum2 : 0 ≤ cs2.sum := List.sum_nonneg (fun a ha => by
      have := hrest a ha
      omega)
    rw [thresholdVals] at hx
    simp only [List.mem_cons] at hx
    rcases hx with hx | hx
    · exact ⟨start + c - 1, by omega, by simp only [List.sum_cons]; omega, hx⟩
    · obtain ⟨i, hi1, hi2, hieq⟩ := ih (start + c) hrest x hx
      exact ⟨i, by omega, by simp only [List.sum_cons]; omega, hieq⟩

theorem thresholdVals_pairwise (sorted : List ℚ)
    (hsorted : List.Pairwise (· > ·) sorted) :
    ∀ (cs : List ℤ) (start : ℤ), 0 ≤ start → (∀ c ∈ cs, 1 ≤ c) →
      start + cs.sum ≤ (sorted.length : ℤ) →
      List.Pairwise (· > ·) (thresholdVals sorted start cs) := by
  intro cs
  induction cs with
  | nil => intro start _ _ _; simp [thresholdVals]
  | cons c cs2 ih =>
    intro start hs hcs hbound
    have hc1 : (1 : ℤ) ≤ c := hcs c (List.mem_cons_self _ _)
    have hrest : ∀ a ∈ cs2, (1 : ℤ) ≤ a :=
      fun a ha => hcs a (List.mem_cons_of_mem _ ha)
    have hsum2 : 0 ≤ cs2.sum := List.sum_nonneg (fun a ha => by
      have := hrest a ha
      omega)
    rw [List.sum_cons] at hbound
    rw [thresholdVals]
    refine List.Pairwise.cons ?_ (ih (start + c) (by omega) hrest (by omega))
    intro y hy
    obtain ⟨i, hi1, hi2, hieq⟩ := thresholdVals_mem sorted cs2 (start + c) hrest y hy
    subst hieq
    obtain ⟨hjn, hjv⟩ := ilocVal_eq_get sorted (start + c - 1) (by omega) (by omega)
    obtain ⟨hin, hiv⟩ := ilocVal_eq_get sorted i (by omega) (by omega)
    rw [hjv, hiv]
    exact List.pairwise_iff_get.mp hsorted ⟨_, hjn⟩ ⟨_, hin⟩ (by
      simp only [Fin.mk_lt_mk]
      omega)

/-! Weight and count arithmetic. -/

theorem gradeWeights_length (labels : List String) (centric : String) :
    (gradeWeights labels centric).length = labels.length := by
  simp [gradeWeights]

theorem gradeWeights_pos (labels : List String) (centric : String) :
    ∀ w ∈ gradeWeights labels centric, 1 ≤ w := by
  intro w hw
  simp only [gradeWeights, List.mem_map] at hw
  obtain ⟨a, _, rfl⟩ := hw
  omega

theorem sum_split_last (l : List ℕ) (h : l ≠ []) (hpos : ∀ a ∈ l, 1 ≤ a) :
    l.dropLast.sum + 1 ≤ l.sum ∧ 1 ≤ l.sum := by
  have hsplit := List.dropLast_append_getLast h
  have hsum : l.dropLast.sum + l.getLast h = l.sum := by
    conv_rhs => rw [← hsplit]
    rw [List.sum_append, List.sum_cons, List.sum_nil]
    omega
  have hg : 1 ≤ l.getLast h := hpos _ (List.getLast_mem h)
  omega

theorem map_dropLast {α β : Type} (f : α → β) :
    ∀ l : List α, (l.map f).dropLast = l.dropLast.map f := by
  intro l
  induction l with
  | nil => rfl
  | cons a l2 ih =>
    cases l2 with
    | nil => rfl
    | cons b l3 =>
      simp only [List.map_cons, List.dropLast_cons₂] at ih ⊢
      rw [← List.map_cons, ← ih]
      rfl

theorem floor_sum_le (f : ℕ → ℚ) :
    ∀ L : List ℕ, (((L.map (fun w => ⌊f w⌋)).sum : ℤ) : ℚ) ≤ (L.map f).sum := by
  intro L
  induction L with
  | nil => simp
  | cons a L2 ih =>
    simp only [List.map_cons, List.sum_cons]
    push_cast
    have := Int.floor_le (f a)
    push_cast at ih
    linarith

theorem sum_map_div_mul (c d : ℚ) :
    ∀ L : List ℕ, (L.map (fun (w : ℕ) => (w : ℚ) / c * d)).sum =
      ((L.sum : ℕ) : ℚ) / c * d := by
  intro L
  induction L with
  | nil => simp
  | cons a L2 ih =>
    simp only [List.map_cons, List.sum_cons, ih]
    push_cast
    ring

theorem rawCounts_nonneg (labels : List String) (centric : String) (t : ℕ) :
    ∀ cnt ∈ rawCounts labels centric t, 0 ≤ cnt := by
  intro cnt hcnt
  simp only [rawCounts, List.mem_map] at hcnt
  obtain ⟨w, _, rfl⟩ := hcnt
  refine Int.le_floor.mpr ?_
  rw [Int.cast_zero]
  exact mul_nonneg (div_nonneg (Nat.cast_nonneg w) (Nat.cast_nonneg _))
    (Nat.cast_nonneg t)

theorem rawCounts_prefix_bound (labels : List String) (centric : String) (t : ℕ)
    (hl : labels ≠ []) (ht : 1 ≤ t) :
    ((rawCounts labels centric t).dropLast).sum < (t : ℤ) := by
  have hws : gradeWeights labels centric ≠ [] := by
    intro h
    have := gradeWeights_length labels centric
    rw [h] at this
    exact hl (List.length_eq_zero.mp this.symm)
  obtain ⟨hsplit, hS1⟩ :=
    sum_split_last (gradeWeights labels centric) hws (gradeWeights_pos labels centric)
  have hmap : (rawCounts labels centric t).dropLast =
      (gradeWeights labels centric).dropLast.map
        (fun (w : ℕ) =>
          ⌊(w : ℚ) / ((gradeWeights labels centric).sum : ℚ) * (t : ℚ)⌋) := by
    rw [rawCounts, map_dropLast]
  have hfl := floor_sum_le
    (fun (w : ℕ) => (w : ℚ) / ((gradeWeights labels centric).sum : ℚ) * (t : ℚ))
    (gradeWeights labels centric).dropLast
  rw [sum_map_div_mul] at hfl
  have hQ : (((gradeWeights labels centric).dropLast.sum : ℕ) : ℚ) /
      ((gradeWeights labels centric).sum : ℚ) * (t : ℚ) < (t : ℚ) := by
    have hSpos : (0 : ℚ) < ((gradeWeights labels centric).sum : ℚ) := by
      exact_mod_cast hS1
    rw [div_mul_eq_mul_div, div_lt_iff₀ hSpos]
    have hD : (((gradeWeights labels centric).dropLast.sum : ℕ) : ℚ) + 1 ≤
        ((gradeWeights labels centric).sum : ℚ) := by
      exact_mod_cast hsplit
    have htpos : (0 : ℚ) < (t : ℚ) := by exact_mod_cast ht
    nlinarith
  rw [hmap]
  have : (((gradeWeights labels centric).dropLast.map
      (fun (w : ℕ) =>
        ⌊(w : ℚ) / ((gradeWeights labels centric).sum : ℚ) * (t : ℚ)⌋)).sum : ℚ) <
      (t : ℚ) := lt_of_le_of_lt hfl hQ
  exact_mod_cast this

theorem zip_append_single {α β : Type} (A : List α) (x : β) :
    ∀ (B : List β), A.length = B.length → A.zip (B ++ [x]) = A.zip B := by
  induction A with
  | nil => intro B _; rfl
  | cons a A2 ih =>
    intro B h
    cases B with
    | nil => simp at h
    | cons b B2 =>
      simp only [List.cons_append, List.zip_cons_cons]
      rw [ih B2 (by simpa using h)]

theorem getLast_not_mem_dropLast (l : List String) (h : l ≠ []) (hnd : l.Nodup) :
    l.getLast h ∉ l.dropLast := by
  intro hmem
  have hsplit := List.dropLast_append_getLast h
  rw [← hsplit] at hnd
  rcases List.nodup_append.mp hnd with ⟨_, _, hdisj⟩
  exact hdisj hmem (by simp)

theorem getLastD_mem (l : List String) (h : l ≠ []) : l.getLastD "" ∈ l := by
  rw [List.getLastD_eq_getLast?, List.getLast?_eq_getLast l h, Option.getD_some]
  exact List.getLast_mem h

theorem getLastD_eq_getLast (l : List String) (h : l ≠ []) :
    l.getLastD "" = l.getLast h := by
  rw [List.getLastD_eq_getLast?, List.getLast?_eq_getLast l h, Option.getD_some]

/-! Plumbing for the automatic branch of `compute_grade_boundaries`. -/

theorem zip_counts_eq (scores : List ℚ) (labels : List String) (centric : String) :
    labels.dropLast.zip (gradeCounts labels centric scores.length) =
      labels.dropLast.zip ((rawCounts labels centric scores.length).dropLast) := by
  rw [gradeCounts]
  exact zip_append_single labels.dropLast _ _
    (by simp [List.length_dropLast, rawCounts_length])

theorem zip_counts_nonneg (scores : List ℚ) (labels : List String) (centric : String) :
    ∀ p ∈ labels.dropLast.zip ((rawCounts labels centric scores.length).dropLast),
      (0 : ℤ) ≤ p.2 := by
  intro p hp
  have hmem := (List.of_mem_zip hp).2
  exact rawCounts_nonneg labels centric scores.length p.2
    ((List.dropLast_sublist _).subset hmem)

theorem compute_auto_some (scores : List ℚ) (labels : List String)
    (centric : String) (hc : centric ∈ labels) :
    ∃ d0,
      boundLoop
        (labels.dropLast.zip ((rawCounts labels centric scores.length).dropLast))
        (List.insertionSort (· ≥ ·) scores) 0 [] = some d0 ∧
      compute_grade_boundaries scores labels centric none =
        some (scores.map
            (fun x => assignGrade x (dictInsert d0 (labels.getLastD "") 0) labels),
          dictInsert d0 (labels.getLastD "") 0) := by
  have hl : labels ≠ [] := List.ne_nil_of_mem hc
  obtain ⟨d0, hloop⟩ := boundLoop_isSome (List.insertionSort (· ≥ ·) scores)
    (labels.dropLast.zip ((rawCounts labels centric scores.length).dropLast))
    0 [] le_rfl (zip_counts_nonneg scores labels centric)
  have hauto : autoBoundaries scores labels centric =
      some (dictInsert d0 (labels.getLastD "") 0) := by
    simp only [autoBoundaries]
    rw [zip_counts_eq, hloop]
    show (match labels.getLast? with
      | none => none
      | some lastL => some (dictInsert d0 lastL 0)) =
      some (dictInsert d0 (labels.getLastD "") 0)
    rw [List.getLast?_eq_getLast labels hl, getLastD_eq_getLast labels hl]
  refine ⟨d0, hloop, ?_⟩
  simp only [compute_grade_boundaries, if_pos hc, Option.getD_none, List.isEmpty_nil,
    if_true]
  rw [hauto]

/-- C4: in automatic mode the boundary map always stores exactly 0 for the
last (lowest) label, regardless of the computed counts. -/
theorem C4_last_label_zero (scores : List ℚ) (labels : List String)
    (centric : String) (h2 : 2 ≤ labels.length) (hc : centric ∈ labels) :
    ∃ gs m, compute_grade_boundaries scores labels centric none = some (gs, m) ∧
      dlookup (labels.getLastD "") m = some 0 := by
  obtain ⟨d0, _, hcomp⟩ := compute_auto_some scores labels centric hc
  exact ⟨_, _, hcomp, dlookup_dictInsert_self d0 _ 0⟩

/-- C4 witness: with one student and two labels the lowest label gets 0. -/
theorem C4_last_label_zero_w :
    ∃ gs m, compute_grade_boundaries [50] ["A", "B"] "A" none = some (gs, m) ∧
      dlookup ((["A", "B"] : List String).getLastD "") m = some 0 :=
  C4_last_label_zero [50] ["A", "B"] "A" (by decide) (by decide)

/-- C5: in automatic mode every score receives exactly one grade label and
that label is a member of the supplied label sequence. -/
theorem C5_every_score_labeled (scores : List ℚ) (labels : List String)
    (centric : String) (h2 : 2 ≤ labels.length) (hc : centric ∈ labels) :
    ∃ gs m, compute_grade_boundaries scores labels centric none = some (gs, m) ∧
      gs.length = scores.length ∧ ∀ g ∈ gs, g ∈ labels := by
  obtain ⟨d0, hloop, hcomp⟩ := compute_auto_some scores labels centric hc
  have hl : labels ≠ [] := List.ne_nil_of_mem hc
  refine ⟨_, _, hcomp, by simp, ?_⟩
  intro g hg
  simp only [List.mem_map] at hg
  obtain ⟨x, _, rfl⟩ := hg
  rcases hfq : findQual x (dictInsert d0 (labels.getLastD "") 0) with _ | g2
  · rw [assignGrade, hfq, Option.getD_none]
    exact getLastD_mem labels hl
  · rw [assignGrade, hfq, Option.getD_some]
    have hkeys := findQual_mem_keys x _ g2 hfq
    have hsub := keys_dictInsert_subset d0 (labels.getLastD "") 0 hkeys
    simp only [List.mem_cons] at hsub
    rcases hsub with h1 | h1
    · exact h1 ▸ getLastD_mem labels hl
    · rcases boundLoop_keys _ _ _ _ _ hloop g2 h1 with h2 | h2
      · simp at h2
      · simp only [List.mem_map] at h2
        obtain ⟨p, hp, rfl⟩ := h2
        exact (List.dropLast_sublist labels).subset (List.of_mem_zip hp).1
  
/-- C5 witness: the ten-score scenario is fully labeled inside the sequence. -/
theorem C5_every_score_labeled_w :
    ∃ gs m,
      compute_grade_boundaries [10, 20, 30, 40, 50, 60, 70, 80, 90, 100]
        ["A", "B", "F"] "B" none = some (gs, m) ∧
      gs.length = ([10, 20, 30, 40, 50, 60, 70, 80, 90, 100] : List ℚ).length ∧
      ∀ g ∈ gs, g ∈ ["A", "B", "F"] :=
  C5_every_score_labeled [10, 20, 30, 40, 50, 60, 70, 80, 90, 100]
    ["A", "B", "F"] "B" (by decide) (by decide)

/-- C9 (amended): under a well-formed label sequence and member centric label
the allocator never raises for any scores and any manual argument; and the
boundary map produced by automatic allocation from a non-empty score set can
always be validated, returning a boolean. -/
theorem C9_no_raise_amended (labels : List String) (centric : String)
    (h2 : 2 ≤ labels.length) (hc : centric ∈ labels) :
    (∀ (scores : List ℚ) manual,
      (compute_grade_boundaries scores labels centric manual).isSome) ∧
    (∀ (scores : List ℚ) gs m, scores ≠ [] →
      compute_grade_boundaries scores labels centric none = some (gs, m) →
      (validate_boundaries labels m).isSome) := by
  have hl : labels ≠ [] := List.ne_nil_of_mem hc
  constructor
  · intro scores manual
    rcases manual with _ | m
    · obtain ⟨d0, _, hcomp⟩ := compute_auto_some scores labels centric hc
      simp [hcomp]
    · rcases m with _ | ⟨p, r⟩
      · have heq : compute_grade_boundaries scores labels centric (some []) =
            compute_grade_boundaries scores labels centric none := rfl
        obtain ⟨d0, _, hcomp⟩ := compute_auto_some scores labels centric hc
        rw [heq]
        simp [hcomp]
      · rw [manualBranch scores labels centric (p :: r) hc (by simp)]
        rfl
  · intro scores gs m hne hcomp
    obtain ⟨d0, hloop, hcomp2⟩ := compute_auto_some scores labels centric hc
    have hm : m = dictInsert d0 (labels.getLastD "") 0 := by
      have heq := hcomp.symm.trans hcomp2
      simp only [Option.some.injEq, Prod.mk.injEq] at heq
      exact heq.2
    have ht : 1 ≤ scores.length := List.length_pos.mpr hne
    have hlen : labels.dropLast.length =
        ((rawCounts labels centric scores.length).dropLast).length := by
      simp [List.length_dropLast, rawCounts_length]
    have hbound : (0 : ℤ) +
        ((labels.dropLast.zip
          ((rawCounts labels centric scores.length).dropLast)).map Prod.snd).sum <
        ((List.insertionSort (· ≥ ·) scores).length : ℤ) := by
      rw [List.map_snd_zip _ _ (le_of_eq hlen.symm),
        (List.perm_insertionSort (· ≥ ·) scores).length_eq]
      have := rawCounts_prefix_bound labels centric scores.length hl ht
      omega
    obtain ⟨hpres, _⟩ := boundLoop_keys_present _ _ 0 [] d0 le_rfl
      (zip_counts_nonneg scores labels centric) hbound hloop
    have hkeys : ∀ l ∈ labels.dropLast, (dlookup l m).isSome := by
      intro l hld
      have h1 : l ∈ (labels.dropLast.zip
          ((rawCounts labels centric scores.length).dropLast)).map Prod.fst := by
        rw [List.map_fst_zip _ _ (le_of_eq hlen)]
        exact hld
      have h3 : l ∈ m.map Prod.fst :=
        hm ▸ mem_keys_dictInsert d0 _ l 0 (hpres l h1)
      exact dlookup_isSome_of_mem l m h3
    obtain ⟨vs, hvs⟩ := lookupAll_isSome labels.dropLast m hkeys
    rw [validate_boundaries, hvs]
    rfl

/-- C9 witness: allocation succeeds and the produced map validates on a
non-empty score set. -/
theorem C9_no_raise_amended_w :
    (compute_grade_boundaries [10, 20] ["A", "B", "F"] "B" none).isSome ∧
    (validate_boundaries ["A", "B", "F"] [("A", 10), ("B", 20), ("F", 0)]).isSome :=
  ⟨(C9_no_raise_amended ["A", "B", "F"] "B" (by decide) (by decide)).1 [10, 20] none,
   (C9_no_raise_amended ["A", "B", "F"] "B" (by decide) (by decide)).2 [10, 20]
      ["A", "A"] [("A", 10), ("B", 20), ("F", 0)] (by decide)
      (by simp only [compute_grade_boundaries, autoBoundaries, gradeCounts,
            rawCounts_eq_div]
          decide)⟩

/-- C2 (amended): in automatic mode, whenever every non-last computed target
count is at least 1 and the scores are pairwise distinct, the boundary map has
strictly descending thresholds over the non-last labels walked in label order
(the validator accepts it) and the last label's threshold is 0. -/
theorem C2_strict_descent_amended (scores : List ℚ) (labels : List String)
    (centric : String) (h2 : 2 ≤ labels.length) (hc : centric ∈ labels)
    (hnd : labels.Nodup) (hne : scores ≠ []) (hdist : scores.Nodup)
    (hcnt : ∀ c ∈ (gradeCounts labels centric scores.length).dropLast, 1 ≤ c) :
    ∃ gs m, compute_grade_boundaries scores labels centric none = some (gs, m) ∧
      validate_boundaries labels m = some true ∧
      dlookup (labels.getLastD "") m = some 0 := by
  have hl : labels ≠ [] := List.ne_nil_of_mem hc
  have hcnt2 : ∀ c ∈ (rawCounts labels centric scores.length).dropLast,
      (1 : ℤ) ≤ c := by
    intro c hcc
    apply hcnt
    rw [gradeCounts, List.dropLast_concat]
    exact hcc
  have hlen : labels.dropLast.length =
      ((rawCounts labels centric scores.length).dropLast).length := by
    simp [List.length_dropLast, rawCounts_length]
  have ht : 1 ≤ scores.length := List.length_pos.mpr hne
  have hsum_lt := rawCounts_prefix_bound labels centric scores.length hl ht
  have hslen : (List.insertionSort (· ≥ ·) scores).length = scores.length :=
    (List.perm_insertionSort (· ≥ ·) scores).length_eq
  have hndk : (labels.dropLast).Nodup := (List.dropLast_sublist labels).nodup hnd
  have hrun := boundLoop_run (List.insertionSort (· ≥ ·) scores) labels.dropLast
    ((rawCounts labels centric scores.length).dropLast) 0 [] hlen le_rfl
    (fun c hcc => by have := hcnt2 c hcc; omega)
    (by rw [hslen]; omega) hndk (by simp)
  obtain ⟨d0, hloop, hcomp⟩ := compute_auto_some scores labels centric hc
  have hd0 : d0 = labels.dropLast.zip
      (thresholdVals (List.insertionSort (· ≥ ·) scores) 0
        ((rawCounts labels centric scores.length).dropLast)) := by
    have heq := hloop.symm.trans hrun
    simp only [List.nil_append, Option.some.injEq] at heq
    exact heq
  have htlen : labels.dropLast.length ≤
      (thresholdVals (List.insertionSort (· ≥ ·) scores) 0
        ((rawCounts labels centric scores.length).dropLast)).length := by
    rw [thresholdVals_length]
    exact le_of_eq hlen
  have hkeys : (labels.dropLast.zip
      (thresholdVals (List.insertionSort (· ≥ ·) scores) 0
        ((rawCounts labels centric scores.length).dropLast))).map Prod.fst =
      labels.dropLast :=
    List.map_fst_zip _ _ htlen
  have hvals : (labels.dropLast.zip
      (thresholdVals (List.insertionSort (· ≥ ·) scores) 0
        ((rawCounts labels centric scores.length).dropLast))).map Prod.snd =
      thresholdVals (List.insertionSort (· ≥ ·) scores) 0
        ((rawCounts labels centric scores.length).dropLast) :=
    List.map_snd_zip _ _ (by rw [thresholdVals_length]; exact le_of_eq hlen.symm)
  have hmform : dictInsert d0 (labels.getLastD "") 0 =
      labels.dropLast.zip
        (thresholdVals (List.insertionSort (· ≥ ·) scores) 0
          ((rawCounts labels centric scores.length).dropLast)) ++
        [(labels.getLastD "", 0)] := by
    rw [hd0]
    apply dictInsert_of_not_mem
    rw [hkeys, getLastD_eq_getLast labels hl]
    exact getLast_not_mem_dropLast labels hl hnd
  refine ⟨_, _, hcomp, ?_, dlookup_dictInsert_self d0 _ 0⟩
  rw [hmform]
  have hlook : lookupAll labels.dropLast
      (labels.dropLast.zip
        (thresholdVals (List.insertionSort (· ≥ ·) scores) 0
          ((rawCounts labels centric scores.length).dropLast)) ++
        [(labels.getLastD "", 0)]) =
      some (thresholdVals (List.insertionSort (· ≥ ·) scores) 0
        ((rawCounts labels centric scores.length).dropLast)) := by
    have hself := lookupAll_self
      (labels.dropLast.zip
        (thresholdVals (List.insertionSort (· ≥ ·) scores) 0
          ((rawCounts labels centric scores.length).dropLast)))
      (by rw [hkeys]; exact hndk)
    rw [hkeys, hvals] at hself
    rw [lookupAll_congr labels.dropLast _ _
      (fun l hld => dlookup_append_of_mem l _ _ (by rw [hkeys]; exact hld))]
    exact hself
  rw [validate_boundaries, hlook]
  have hsorted : List.Pairwise (· ≥ ·) (List.insertionSort (· ≥ ·) scores) :=
    List.sorted_insertionSort (· ≥ ·) scores
  have hnodupS : (List.insertionSort (· ≥ ·) scores).Nodup :=
    ((List.perm_insertionSort (· ≥ ·) scores).nodup_iff).mpr hdist
  have hpw : List.Pairwise (· > ·) (List.insertionSort (· ≥ ·) scores) :=
    (hsorted.and hnodupS).imp (fun h => h.1.lt_of_ne (Ne.symm h.2))
  have hchain := (thresholdVals_pairwise (List.insertionSort (· ≥ ·) scores) hpw
    ((rawCounts labels centric scores.length).dropLast) 0 le_rfl hcnt2
    (by rw [hslen]; omega)).chain'
  show some (descChain (thresholdVals (List.insertionSort (· ≥ ·) scores) 0
    ((rawCounts labels centric scores.length).dropLast))) = some true
  rw [(descChain_iff _).mpr hchain]

/-- C2 witness: the ten-score scenario has counts `[2, 5]` on the non-last
labels and distinct scores, and its automatic boundary map validates with a
zero floor. -/
theorem C2_strict_descent_amended_w :
    ∃ gs m,
      compute_grade_boundaries [10, 20, 30, 40, 50, 60, 70, 80, 90, 100]
        ["A", "B", "F"] "B" none = some (gs, m) ∧
      validate_boundaries ["A", "B", "F"] m = some true ∧
      dlookup ((["A", "B", "F"] : List String).getLastD "") m = some 0 :=
  C2_strict_descent_amended [10, 20, 30, 40, 50, 60, 70, 80, 90, 100]
    ["A", "B", "F"] "B" (by decide) (by decide) (by decide) (by decide) (by decide)
    (by simp only [gradeCounts, rawCounts_eq_div]
        decide)
